import Mathlib

/-!
# A verification development for the dbx row-mapping library

This file embeds the core of the dbx repository (a Go library decoding SQL
rows into typed records) as executable Lean definitions and proves
properties of them.

Embedded pieces and their sources:

* `getMapping`, `buildStructMap`, `TypeMap`, `TraversalsByName`,
  `FieldInfo.IsRecursive` logic — the reflection mapper (`reflect.go`,
  provided as an unnamed source part).
* `isScannable`, `missingFields`, `fieldsByTraversal`, `scan` — the row
  decoding engine (`dbx_select.go`, provided appended to its test file).
* `Get`, `Scanner.slice` / `Collect` / `CollectCap` — `dbx.go`.

Modelling conventions:

* Go `reflect.Type` values form a graph, so types are modelled as indices
  (`TypeId`) into a finite environment `Env`; identity of `reflect.Type`
  is identity of the index.  `derefType` (pointer unwrapping) is given
  `env.length` fuel, enough for every well-formed pointer chain.
* The breadth-first queue loop of `getMapping` is written with an explicit
  fuel argument `goFuel`; `getMapping` runs it with the bound
  `(maxFields env + 2) ^ (env.length + 1)`, and the termination theorem for
  claim C3 proves this fuel always suffices on well-formed environments
  (the returned completion flag is `true`).
* The lazy `iter.Seq2` produced by `scan` is modelled as the list of
  events the iterator body emits: yields, row pulls, destination bindings,
  and cursor closes (the `defer rows.Close()` is written out at every exit
  point of the body, mirroring the Go control flow).  The consumer is
  modelled by a `budget`: the count of value yields it accepts before its
  `yield` returns `false`.
* Engine behaviour (column enumeration, per-row decode outcomes, the
  post-iteration `rows.Err()`) is an input `Cursor`, matching the spec's
  treatment of the query engine as an external capability.
-/

namespace Dbx

/-- Errors, modelling Go `error` values produced or propagated by dbx.
`scanFail` models wrapping with `fmt.Errorf("...: %w", err)`, so
`errors.Is` (here `isNoRows`) looks through it. -/
inductive Err where
  | noRows
  | colCountMismatch (kindName : String) (cols : Nat)
  | missingDest (col : String)
  | scanFail (inner : Err)
  | notStruct
  | engine (msg : String)
deriving DecidableEq

/-- `errors.Is(err, sql.ErrNoRows)`: true iff the wrap chain ends in
`sql.ErrNoRows`. -/
def Err.isNoRows : Err → Bool
  | .noRows => true
  | .scanFail e => e.isNoRows
  | _ => false

/-- Identity of a Go `reflect.Type`: an index into the environment. -/
abbrev TypeId := Nat

/-- One struct field as reflection reports it: name, type, the value of its
`db` tag (empty string when absent), whether it is anonymous (embedded) and
whether it is exported. -/
structure GoField where
  fname : String
  typ : TypeId
  tag : String
  anonymous : Bool
  exported : Bool
deriving DecidableEq

/-- The shape of a type: a non-struct base kind, a pointer, or a struct
with its declared fields in declaration order. -/
inductive TypeDesc where
  | base
  | ptr (elem : TypeId)
  | strukt (fields : List GoField)
deriving DecidableEq

/-- An environment entry: the type's shape plus whether `*T` implements
`sql.Scanner` (the type-level self-decode hook checked by `isScannable`). -/
structure TypeEnt where
  desc : TypeDesc
  selfScan : Bool
deriving DecidableEq

/-- A finite universe of types, indexed by `TypeId`. -/
abbrev Env := List TypeEnt

/-- Looking up a `TypeId`; out-of-range ids behave as an opaque base kind. -/
def lookup (env : Env) (i : TypeId) : TypeEnt :=
  env.getD i ⟨.base, false⟩

/-- Go `reflect.Kind`, restricted to the distinctions dbx makes. -/
inductive GoKind where
  | kbase
  | kptr
  | kstruct
deriving DecidableEq

def kindOf (env : Env) (i : TypeId) : GoKind :=
  match (lookup env i).desc with
  | .base => .kbase
  | .ptr _ => .kptr
  | .strukt _ => .kstruct

def isStructKind (env : Env) (i : TypeId) : Bool :=
  kindOf env i = .kstruct

/-- The pointee of a pointer type (identity on everything else). -/
def elemOf (env : Env) (i : TypeId) : TypeId :=
  match (lookup env i).desc with
  | .ptr j => j
  | _ => i

/-- `derefType` unwraps pointer layers; the fuel `env.length` covers every
pointer chain expressible without revisiting a type. -/
def derefTypeAux (env : Env) : Nat → TypeId → TypeId
  | 0, i => i
  | n + 1, i =>
    match (lookup env i).desc with
    | .ptr j => derefTypeAux env n j
    | _ => i

def derefType (env : Env) (i : TypeId) : TypeId :=
  derefTypeAux env env.length i

/-- Kind name used in the column-count error message
(`"non-struct dest type %s with >1 columns"`). -/
def kindString (env : Env) (i : TypeId) : String :=
  match kindOf env i with
  | .kbase => "base"
  | .kptr => "ptr"
  | .kstruct => "struct"

/-- `strings.ToLower`, the name transform of `DefaultMapper`
(`NewMapperFunc("db", strings.ToLower)`), modelled character-wise (dbx
field identifiers are ASCII). -/
def goLower (s : String) : String :=
  ⟨s.data.map Char.toLower⟩

/-- Modelled from the spec: `parseName` (the tag parser of the reflection
mapper) is not among the provided source files; §6 of the spec defines the
per-field naming contract: "an optional per-field annotation supplying (a)
the resolved column name, or (b) the exclusion sentinel to omit the field
entirely; absent an annotation, the field's identifier is passed through a
configurable name-transform function".  Returns the raw tag and the
resolved name, as `getMapping` consumes both. -/
def parseName (f : GoField) (mapFunc : String → String) : String × String :=
  (f.tag, if f.tag ≠ "" then f.tag else mapFunc f.fname)

/-- `FieldInfo`, the per-field metadata record.  `Parent` and `Children`
back-references are not materialised; the ancestor chain the source walks
in `FieldInfo.IsRecursive` is threaded through the queue entries instead
(the spec's §9 suggests exactly this rendering). -/
structure FI where
  traversal : List Nat
  path : String
  name : String
  ftype : TypeId
  embedded : Bool
deriving DecidableEq

/-- `FieldInfo.IsStruct`: the zero value's kind is struct, or pointer whose
pointee's kind is struct. -/
def isStructField (env : Env) (t : TypeId) : Bool :=
  match (lookup env t).desc with
  | .strukt _ => true
  | .ptr j => isStructKind env j
  | .base => false

/-- A `typeQueue` entry of the BFS in `getMapping`: the (already
dereferenced) type to expand, the popped descriptor's own field type
(`none` for the synthetic root, whose zero `StructField` has a nil type),
the field types of its strict non-root ancestors (what
`FieldInfo.IsRecursive` walks), its traversal, and the path prefix its
children inherit. -/
structure QEntry where
  t : TypeId
  ftype : Option TypeId
  ancestors : List TypeId
  traversal : List Nat
  parentPath : String
deriving DecidableEq

/-- `FieldInfo.IsRecursive`: the descriptor's own field type equals the
field type of some strict ancestor. -/
def entryRecursive (e : QEntry) : Bool :=
  match e.ftype with
  | none => false
  | some ft => decide (ft ∈ e.ancestors)

/-- The per-field body of the BFS loop of `getMapping`: walks the declared
fields of the popped struct in declaration order, skipping unexported
non-anonymous fields and fields whose resolved name is the sentinel `"-"`,
and produces the enqueued child entries and the descriptors appended to
the flat index, in order. -/
def expandFields (env : Env) (mf : String → String) (e : QEntry) :
    Nat → List GoField → List QEntry × List FI
  | _, [] => ([], [])
  | p, f :: fs =>
    let rest := expandFields env mf e (p + 1) fs
    if f.exported = false ∧ f.anonymous = false then rest
    else
      let tn := parseName f mf
      if tn.2 = "-" then rest
      else
        let path := if e.parentPath = "" then tn.2 else e.parentPath ++ "." ++ tn.2
        let fi : FI := ⟨e.traversal ++ [p], path, tn.2, f.typ, f.anonymous⟩
        let anc := e.ancestors ++ e.ftype.toList
        if f.anonymous then
          let pp := if tn.1 ≠ "" then path else e.parentPath
          (⟨derefType env f.typ, some f.typ, anc, fi.traversal, pp⟩ :: rest.1, fi :: rest.2)
        else if isStructField env f.typ then
          (⟨derefType env f.typ, some f.typ, anc, fi.traversal, path⟩ :: rest.1, fi :: rest.2)
        else
          (rest.1, fi :: rest.2)

/-- Processing one popped queue entry: a recursion leaf is skipped
(`continue`), a non-struct type has no fields, a struct expands its
fields. -/
def expandEntry (env : Env) (mf : String → String) (e : QEntry) :
    List QEntry × List FI :=
  if entryRecursive e then ([], [])
  else
    match (lookup env e.t).desc with
    | .strukt fs => expandFields env mf e 0 fs
    | _ => ([], [])

/-- The BFS queue loop of `getMapping`, with explicit fuel.  Returns the
flat index in discovery order together with a completion flag: `false`
means the fuel ran out with work remaining (shown never to happen for the
fuel `getMapping` uses, on well-formed environments). -/
def goFuel (env : Env) (mf : String → String) :
    Nat → List QEntry → List FI → List FI × Bool
  | _, [], m => (m, true)
  | 0, _ :: _, m => (m, false)
  | fuel + 1, e :: rest, m =>
    let step := expandEntry env mf e
    goFuel env mf fuel (rest ++ step.1) (m ++ step.2)

def numFields (ent : TypeEnt) : Nat :=
  match ent.desc with
  | .strukt fs => fs.length
  | _ => 0

def maxFields (env : Env) : Nat :=
  env.foldr (fun ent acc => max (numFields ent) acc) 0

/-- Fuel that the termination proof shows is always sufficient. -/
def fuelBound (env : Env) : Nat :=
  (maxFields env + 2) ^ (env.length + 1)

/-- The full BFS run for a root type: initial queue as in the source,
`{derefType(t), root, ""}` with the synthetic root descriptor. -/
def getMappingRun (env : Env) (mf : String → String) (t : TypeId) :
    List FI × Bool :=
  goFuel env mf (fuelBound env) [⟨derefType env t, none, [], [], ""⟩] []

/-- Association-list maps; insertion conses in front, lookup takes the most
recent binding, so assignment overwrites as a Go map does. -/
def mapFind (l : List (String × FI)) (k : String) : Option FI :=
  match l with
  | [] => none
  | (k', v) :: rest => if k' = k then some v else mapFind rest k

/-- `StructMap`: flat index in discovery order and the name index.  The
descriptor tree is not materialised; its non-root nodes are exactly the
`Index` entries (each descriptor is registered as a child of its parent in
the same step that appends it to the index). -/
structure StructMap where
  Index : List FI
  Names : List (String × FI)
deriving DecidableEq

/-- The name-index assembly loop of `buildStructMap`: one pass over the
flat index; a descriptor claims its path if the path is unclaimed or the
current occupant is an embedded promotion, and is then registered in
`Names` (under its path) when it is itself non-embedded with a non-empty
name. -/
def buildGo : List FI → List (String × FI) → List (String × FI) → List (String × FI)
  | [], _, names => names
  | fi :: rest, paths, names =>
    match mapFind paths fi.path with
    | some fld =>
      if fld.embedded then
        buildGo rest ((fi.path, fi) :: paths)
          (if fi.name ≠ "" ∧ fi.embedded = false then (fi.path, fi) :: names else names)
      else
        buildGo rest paths names
    | none =>
      buildGo rest ((fi.path, fi) :: paths)
        (if fi.name ≠ "" ∧ fi.embedded = false then (fi.path, fi) :: names else names)

def buildStructMap (index : List FI) : StructMap :=
  ⟨index, buildGo index [] []⟩

/-- `getMapping`: run the BFS and assemble the `StructMap`. -/
def getMapping (env : Env) (mf : String → String) (t : TypeId) : StructMap :=
  buildStructMap (getMappingRun env mf t).1

/-- The completion flag of the fueled BFS run. -/
def getMappingComplete (env : Env) (mf : String → String) (t : TypeId) : Bool :=
  (getMappingRun env mf t).2

/-- `Mapper.TypeMap` modulo the cache (the cache only memoises
`getMapping`, which is a pure function of the type). -/
def TypeMap (env : Env) (mf : String → String) (t : TypeId) : StructMap :=
  getMapping env mf t

/-- `Mapper.TraversalsByName`: dereference, panic (`none`) on a non-struct,
else one traversal per requested name, empty when the name is not in the
name index. -/
def TraversalsByName (mf : String → String) (env : Env) (t : TypeId)
    (names : List String) : Option (List (List Nat)) :=
  let t' := derefType env t
  if isStructKind env t' = false then none
  else
    let tm := TypeMap env mf t'
    some (names.map fun name =>
      match mapFind tm.Names name with
      | some fi => fi.traversal
      | none => [])

/-- `isScannable` (source order): `*T` implements `sql.Scanner`, or the
kind is not struct, or the struct has no mapped fields
(`DefaultMapper.TypeMap(t).Index` empty — the source hardcodes
`DefaultMapper`, whose transform is `strings.ToLower`). -/
def isScannable (env : Env) (t : TypeId) : Bool :=
  if (lookup env t).selfScan then true
  else if isStructKind env t = false then true
  else (TypeMap env goLower t).Index.isEmpty

/-- `missingFields`: index of the first empty traversal, if any (the source
returns `(i, error)`; `none` models the nil error). -/
def missingFieldsAux : Nat → List (List Nat) → Option Nat
  | _, [] => none
  | i, t :: rest => if t = [] then some i else missingFieldsAux (i + 1) rest

def missingFields (traversals : List (List Nat)) : Option Nat :=
  missingFieldsAux 0 traversals

/-- A decode destination bound for one column position: the throwaway
`new(any)` discard target, or the address of the leaf field reached by a
traversal (after `fieldByIndexes` auto-vivification). -/
inductive Dest where
  | discard
  | leafAddr (traversal : List Nat)
deriving DecidableEq

/-- `fieldsByTraversal`: errors unless the destination value is a struct;
otherwise binds, per column, the discard target for an empty traversal and
the leaf field's address for a non-empty one. -/
def fieldsByTraversal (vStruct : Bool) (traversals : List (List Nat)) :
    Except Err (List Dest) :=
  if vStruct = false then .error .notStruct
  else .ok (traversals.map fun tr => if tr = [] then Dest.discard else Dest.leafAddr tr)

/-- Kind of the freshly allocated destination the struct path indirects to:
for a pointer type `T`, `reflect.Indirect(reflect.New(T.Elem()))` has the
pointee's kind; otherwise `T`'s own kind.  (For `**S` this is `ptr`, and
`fieldsByTraversal` then fails, as in the source.) -/
def vStructKind (env : Env) (t : TypeId) : Bool :=
  match (lookup env t).desc with
  | .ptr j => isStructKind env j
  | _ => isStructKind env t

/-- The Queryer handed to `scan`/`Get`: a `*DB` carrying its mapper's
name-transform and the `isUnsafe` / `noRowsErr` flags, or any other
implementation (which gets `DefaultMapper` and strict decoding). -/
inductive QKind where
  | db (mapFn : String → String) (isUnsafe : Bool) (noRowsErr : Bool)
  | plain

def mapperOf : QKind → (String → String)
  | .db f _ _ => f
  | .plain => goLower

def unsafeOf : QKind → Bool
  | .db _ u _ => u
  | .plain => false

deriving instance DecidableEq for Except

/-- The external row cursor: the outcome of `rows.Columns()`, the outcome
of each successive `rows.Next()`+`rows.Scan(...)` pair (an error or the
decoded value), and the post-iteration `rows.Err()`. -/
structure Cursor (T : Type) where
  columnsRes : Except Err (List String)
  rows : List (Except Err T)
  finalErr : Option Err
deriving DecidableEq

/-- The observable events of one run of the iterator body returned by
`scan`: a yield of `(value, error)` (error yields carry the zero value in
Go, which consumers ignore), a scalar or struct row pull (`rows.Next`), the
binding of the destination slice for one row, the panic of
`TraversalsByName` on a non-struct (a Go panic still runs the deferred
close), and the cursor close. -/
inductive Ev (T : Type) where
  | yld (r : Except Err T)
  | pullScalar
  | pullStruct
  | bindDests (dests : List Dest)
  | panicEv
  | close
deriving DecidableEq

/-- The scalar row loop of `scan` followed by the `rows.Err()` check.
`budget` is the number of value yields the consumer accepts; the deferred
`rows.Close()` is appended on every exit path. -/
def scalarLoop {T : Type} (rows : List (Except Err T)) (budget : Nat)
    (finalErr : Option Err) : List (Ev T) :=
  match rows with
  | [] => (match finalErr with
      | some e => [Ev.yld (.error e)]
      | none => []) ++ [Ev.close]
  | r :: rest =>
    Ev.pullScalar :: (match r with
      | .error e => [Ev.yld (.error (Err.scanFail e)), Ev.close]
      | .ok t =>
        match budget with
        | 0 => [Ev.yld (.ok t), Ev.close]
        | b + 1 => Ev.yld (.ok t) :: scalarLoop rest b finalErr)

/-- The struct row loop of `scan`: per row, allocate the destination, bind
the column destinations (`fieldsByTraversal`), have the engine scan into
them, and yield.  (The pointer re-wrap `vp.Interface().(T)` cannot fail —
`vp` is built as `*T.Elem()` — and is modelled as succeeding.) -/
def structLoop {T : Type} (vStruct : Bool) (fields : List (List Nat))
    (rows : List (Except Err T)) (budget : Nat) (finalErr : Option Err) :
    List (Ev T) :=
  match rows with
  | [] => (match finalErr with
      | some e => [Ev.yld (.error e)]
      | none => []) ++ [Ev.close]
  | r :: rest =>
    Ev.pullStruct :: (match fieldsByTraversal vStruct fields with
      | .error e => [Ev.yld (.error e), Ev.close]
      | .ok dests =>
        Ev.bindDests dests :: (match r with
          | .error e => [Ev.yld (.error (Err.scanFail e)), Ev.close]
          | .ok t =>
            match budget with
            | 0 => [Ev.yld (.ok t), Ev.close]
            | b + 1 => Ev.yld (.ok t) :: structLoop vStruct fields rest b finalErr))

/-- The iterator body of `scan[T]`, as its event trace.  `tid` is `T`'s
type, `qres` the outcome of `q.QueryContext`: on failure the error is
yielded with no cursor in existence (the `defer rows.Close()` is only
registered after a successful query), on success every exit path below the
defer ends in exactly one `close`. -/
def scanEvents {T : Type} (env : Env) (tid : TypeId) (qk : QKind)
    (qres : Except Err (Cursor T)) (budget : Nat) : List (Ev T) :=
  match qres with
  | .error e => [Ev.yld (.error e)]
  | .ok c =>
    let scannable := isScannable env (derefType env tid)
    match c.columnsRes with
    | .error e => [Ev.yld (.error e), Ev.close]
    | .ok columns =>
      if scannable ∧ 1 < columns.length then
        [Ev.yld (.error (Err.colCountMismatch (kindString env tid) columns.length)),
         Ev.close]
      else if scannable then
        scalarLoop c.rows budget c.finalErr
      else
        match TraversalsByName (mapperOf qk) env tid columns with
        | none => [Ev.panicEv, Ev.close]
        | some fields =>
          match missingFields fields with
          | some i =>
            if unsafeOf qk = false then
              [Ev.yld (.error (Err.missingDest (columns.getD i ""))), Ev.close]
            else
              structLoop (vStructKind env tid) fields c.rows budget c.finalErr
          | none =>
            structLoop (vStructKind env tid) fields c.rows budget c.finalErr

/-- The `(value, error)` pairs a trace yields, in order. -/
def yieldsOf {T : Type} (evs : List (Ev T)) : List (Except Err T) :=
  evs.filterMap fun
    | .yld r => some r
    | _ => none

/-- The first yielded pair, if any. -/
def firstYield {T : Type} (evs : List (Ev T)) : Option (Except Err T) :=
  evs.findSome? fun
    | .yld r => some r
    | _ => none

def isCloseEv {T : Type} : Ev T → Bool
  | .close => true
  | _ => false

def isPullEv {T : Type} : Ev T → Bool
  | .pullScalar => true
  | .pullStruct => true
  | _ => false

def isPullStructEv {T : Type} : Ev T → Bool
  | .pullStruct => true
  | _ => false

def closeCount {T : Type} (evs : List (Ev T)) : Nat :=
  evs.countP isCloseEv

def pullCount {T : Type} (evs : List (Ev T)) : Nat :=
  evs.countP isPullEv

/-- `Get[T]`: ranges over `scan` and returns inside the first iteration
(so the consumer budget is 0 — the first value yield is the last accepted);
with no yield at all it falls through to `var t T; return t, nil`.  On an
error yield from a `*DB` without `noRowsErr`, an `sql.ErrNoRows` is
suppressed to `(row, nil)`.  `z` is the zero value of `T`. -/
def Get {T : Type} (z : T) (env : Env) (tid : TypeId) (qk : QKind)
    (qres : Except Err (Cursor T)) : T × Option Err :=
  match firstYield (scanEvents env tid qk qres 0) with
  | none => (z, none)
  | some (.ok t) => (t, none)
  | some (.error e) =>
    match qk with
    | .db _ _ noRowsErr =>
      if noRowsErr = false ∧ e.isNoRows then (z, none) else (z, some e)
    | .plain => (z, some e)

/-- The element-consuming loop of `Scanner.slice`: append each value,
return the first error immediately (discarding the partial slice and
pulling nothing further). -/
def sliceGo {T : Type} : List (Except Err T) → List T → Except Err (List T)
  | [], acc => .ok acc
  | .error e :: _, _ => .error e
  | .ok t :: rest, acc => sliceGo rest (acc ++ [t])

/-- `Scanner.slice(cap)`: `cap` only presets the slice capacity
(`make([]T, 0, cap)`), which has no observable effect in this model. -/
def slice {T : Type} (capacity : Nat) (s : List (Except Err T)) :
    Except Err (List T) :=
  let _ := capacity
  sliceGo s []

/-- `Scanner.Collect()`. -/
def Collect {T : Type} (s : List (Except Err T)) : Except Err (List T) :=
  slice 0 s

/-- `Scanner.CollectCap(cap)`. -/
def CollectCap {T : Type} (capacity : Nat) (s : List (Except Err T)) :
    Except Err (List T) :=
  slice capacity s

/-- Environment well-formedness: every field's type id is in range.  (Go
reflection guarantees this; the termination theorem assumes it.) -/
def entFields (ent : TypeEnt) : List GoField :=
  match ent.desc with
  | .strukt fs => fs
  | _ => []

def envWF (env : Env) : Bool :=
  env.all fun ent => (entFields ent).all fun f => decide (f.typ < env.length)

/-! ## Generic helper lemmas -/

/-- The values of an all-ok element sequence, in order. -/
def okValues {T : Type} (s : List (Except Err T)) : List T :=
  s.filterMap fun
    | .ok t => some t
    | _ => none

theorem okValues_nil {T : Type} : okValues ([] : List (Except Err T)) = [] := rfl

theorem okValues_cons_ok {T : Type} (t : T) (s : List (Except Err T)) :
    okValues (.ok t :: s) = t :: okValues s := rfl

theorem sliceGo_allOk {T : Type} :
    ∀ (s : List (Except Err T)) (acc : List T),
      (∀ x ∈ s, x.isOk = true) → sliceGo s acc = .ok (acc ++ okValues s) := by
  intro s
  induction s with
  | nil => intro acc _; simp [sliceGo, okValues]
  | cons x rest ih =>
    intro acc hall
    cases x with
    | error e =>
      have := hall (.error e) (by simp)
      simp [Except.isOk, Except.toBool] at this
    | ok t =>
      have hrest : ∀ x ∈ rest, x.isOk = true := fun x hx => hall x (by simp [hx])
      simp [sliceGo, ih (acc ++ [t]) hrest, okValues_cons_ok]

theorem sliceGo_firstError {T : Type} :
    ∀ (pre : List (Except Err T)) (e : Err) (post : List (Except Err T)) (acc : List T),
      (∀ x ∈ pre, x.isOk = true) →
      sliceGo (pre ++ .error e :: post) acc = .error e := by
  intro pre
  induction pre with
  | nil => intro e post acc _; simp [sliceGo]
  | cons x rest ih =>
    intro e post acc hall
    cases x with
    | error e' =>
      have := hall (.error e') (by simp)
      simp [Except.isOk, Except.toBool] at this
    | ok t =>
      have hrest : ∀ x ∈ rest, x.isOk = true := fun x hx => hall x (by simp [hx])
      simpa [sliceGo] using ih e post (acc ++ [t]) hrest

/-! ## C8: collection is all-or-nothing -/

/-- C8: for every sequence of `(value, error)` pairs, `Collect` /
`CollectCap` either return the complete ordered list of decoded values
with no error, or — as soon as some element carries an error — the first
such error, with no partial results (`Except.error` carries no list) and
without the result depending on anything after the error (the suffix
`post` is arbitrary, modelling that nothing further is pulled). -/
theorem collect_all_or_nothing {T : Type} (capacity : Nat) :
    (∀ s : List (Except Err T), (∀ x ∈ s, x.isOk = true) →
      Collect s = .ok (okValues s) ∧ CollectCap capacity s = .ok (okValues s)) ∧
    (∀ (pre : List (Except Err T)) (e : Err) (post : List (Except Err T)),
      (∀ x ∈ pre, x.isOk = true) →
      Collect (pre ++ .error e :: post) = .error e ∧
      CollectCap capacity (pre ++ .error e :: post) = .error e) := by
  constructor
  · intro s hall
    constructor <;> simpa [Collect, CollectCap, slice] using sliceGo_allOk s [] hall
  · intro pre e post hall
    constructor <;>
      simpa [Collect, CollectCap, slice] using sliceGo_firstError pre e post [] hall

/-- Witness for C8 at concrete inputs: a clean two-element collection and
a collection whose second element errors. -/
theorem collect_all_or_nothing_witness :
    Collect [Except.ok (1 : Nat), Except.ok 2] = .ok [1, 2] ∧
    Collect [Except.ok (1 : Nat), Except.error Err.noRows, Except.ok 9] =
      .error Err.noRows :=
  ⟨((collect_all_or_nothing 0).1 [Except.ok 1, Except.ok 2] (by decide)).1,
   ((collect_all_or_nothing 0).2 [Except.ok 1] Err.noRows [Except.ok 9] (by decide)).1⟩

/-! ## C1: the cursor is closed exactly once -/

theorem closeCount_nil {T : Type} : closeCount ([] : List (Ev T)) = 0 := rfl

theorem closeCount_cons {T : Type} (e : Ev T) (l : List (Ev T)) :
    closeCount (e :: l) = (if isCloseEv e then 1 else 0) + closeCount l := by
  simp only [closeCount, List.countP_cons]
  split <;> omega

theorem scalarLoop_close {T : Type} :
    ∀ (rows : List (Except Err T)) (budget : Nat) (finalErr : Option Err),
      closeCount (scalarLoop rows budget finalErr) = 1 := by
  intro rows
  induction rows with
  | nil =>
    intro budget finalErr
    cases finalErr <;> simp [scalarLoop, closeCount, List.countP_append, isCloseEv]
  | cons r rest ih =>
    intro budget finalErr
    cases r with
    | error e => simp [scalarLoop, closeCount, isCloseEv]
    | ok t =>
      cases budget with
      | zero => simp [scalarLoop, closeCount, isCloseEv]
      | succ b =>
        simp only [scalarLoop]
        rw [closeCount_cons, closeCount_cons, ih b finalErr]
        simp [isCloseEv]

theorem structLoop_close {T : Type} (vStruct : Bool) (fields : List (List Nat)) :
    ∀ (rows : List (Except Err T)) (budget : Nat) (finalErr : Option Err),
      closeCount (structLoop vStruct fields rows budget finalErr) = 1 := by
  intro rows
  induction rows with
  | nil =>
    intro budget finalErr
    cases finalErr <;> simp [structLoop, closeCount, List.countP_append, isCloseEv]
  | cons r rest ih =>
    intro budget finalErr
    cases hb : fieldsByTraversal vStruct fields with
    | error e => simp [structLoop, hb, closeCount, isCloseEv]
    | ok dests =>
      cases r with
      | error e => simp [structLoop, hb, closeCount, isCloseEv]
      | ok t =>
        cases budget with
        | zero => simp [structLoop, hb, closeCount, isCloseEv]
        | succ b =>
          simp only [structLoop, hb]
          rw [closeCount_cons, closeCount_cons, closeCount_cons, ih b finalErr]
          simp [isCloseEv]

/-- C1: on every termination path of the decode sequence — natural
exhaustion of rows, an error yielded mid-sequence (column enumeration,
column-count check, missing-field check, per-row scan failure, or the
post-iteration `rows.Err()`), the consumer stopping at any budget, even
the `TraversalsByName` panic — the cursor is closed exactly once; when the
query execution itself fails, no cursor exists and no close happens. -/
theorem scan_closes_cursor_exactly_once {T : Type} (env : Env) (tid : TypeId)
    (qk : QKind) (qres : Except Err (Cursor T)) (budget : Nat) :
    closeCount (scanEvents env tid qk qres budget) =
      match qres with
      | .error _ => 0
      | .ok _ => 1 := by
  cases qres with
  | error e => simp [scanEvents, closeCount, isCloseEv]
  | ok c =>
    obtain ⟨colsRes, rows, finalErr⟩ := c
    cases colsRes with
    | error e => simp [scanEvents, closeCount, isCloseEv]
    | ok cols =>
      simp only [scanEvents]
      split
      · simp [closeCount, isCloseEv]
      · split
        · exact scalarLoop_close rows budget finalErr
        · split
          · simp [closeCount, isCloseEv]
          · split
            · split
              · simp [closeCount, isCloseEv]
              · exact structLoop_close _ _ rows budget finalErr
            · exact structLoop_close _ _ rows budget finalErr

/-! ## Classification helper lemmas -/

theorem isStructKind_of_not_scannable (env : Env) (t : TypeId)
    (h : isScannable env t = false) : isStructKind env t = true := by
  cases hs : (lookup env t).selfScan <;> cases hk : isStructKind env t <;>
    simp [isScannable, hs, hk] at h ⊢

theorem TraversalsByName_of_struct (mf : String → String) (env : Env)
    (tid : TypeId) (cols : List String)
    (h : isStructKind env (derefType env tid) = true) :
    TraversalsByName mf env tid cols =
      some (cols.map fun name =>
        match mapFind (TypeMap env mf (derefType env tid)).Names name with
        | some fi => fi.traversal
        | none => []) := by
  simp [TraversalsByName, h]

theorem derefType_of_struct (env : Env) (t : TypeId)
    (h : isStructKind env t = true) : derefType env t = t := by
  unfold derefType
  cases hn : env.length with
  | zero =>
    simp [derefTypeAux]
  | succ k =>
    unfold isStructKind kindOf at h
    unfold derefTypeAux
    cases hd : (lookup env t).desc <;> simp [hd] at h ⊢

/-! ## Concrete environments used by witnesses and counterexamples -/

/-- One scalar (non-struct) type, like `string`. -/
def envScalar : Env := [⟨.base, false⟩]

/-- Type 0: a record with two tagged string fields (a trimmed `Person`);
type 1: a base scalar. -/
def envPerson : Env := [
  ⟨.strukt [⟨"FirstName", 1, "first_name", false, true⟩,
            ⟨"LastName", 1, "last_name", false, true⟩], false⟩,
  ⟨.base, false⟩]

/-! ## C4: the strict no-rows option never fires on a zero-row query -/

/-- C4 (code bug): with `noRowsErr` set on the `DB`, `Get` against a
successful query producing zero rows still returns the zero value and a
nil error — not the no-rows error the spec's strict variant promises.
`scan` yields nothing for an empty cursor (a zero-row `QueryContext`
result carries no error), so the `errors.Is(err, sql.ErrNoRows)` branch in
`Get`, the only place `noRowsErr` is consulted, can never see an error to
propagate: the loop body never runs and `Get` falls through to
`var t T; return t, nil`. -/
theorem Get_strict_zero_rows_returns_no_error :
    Get (0 : Nat) envScalar 0 (QKind.db goLower false true)
      (.ok ⟨.ok ["first_name"], [], none⟩) = (0, none) := by
  rfl

/-! ## C5: zero rows under the default configuration -/

/-- A well-matched zero-row query produces a bare `[close]` trace. -/
theorem scanEvents_zero_rows {T : Type} (env : Env) (tid : TypeId) (qk : QKind)
    (cols : List String) (budget : Nat)
    (h1 : isScannable env (derefType env tid) = true → cols.length ≤ 1)
    (h2 : ∀ fs, TraversalsByName (mapperOf qk) env tid cols = some fs →
      missingFields fs = none ∨ unsafeOf qk = true) :
    scanEvents (T := T) env tid qk (.ok ⟨.ok cols, [], none⟩) budget = [Ev.close] := by
  simp only [scanEvents]
  cases hsc : isScannable env (derefType env tid) with
  | true =>
    have hlen : ¬ (1 < cols.length) := Nat.not_lt.mpr (h1 hsc)
    simp [hsc, hlen, scalarLoop]
  | false =>
    have hk := isStructKind_of_not_scannable env (derefType env tid) hsc
    have htr := TraversalsByName_of_struct (mapperOf qk) env tid cols hk
    rw [htr]
    rcases h2 _ htr with hmf | hun
    · simp [hsc, hmf, structLoop]
    · cases hmf : missingFields (cols.map fun name =>
          match mapFind (TypeMap env (mapperOf qk) (derefType env tid)).Names name with
          | some fi => fi.traversal
          | none => []) with
      | none => simp [hsc, hmf, structLoop]
      | some i => simp [hsc, hmf, hun, structLoop]

/-- C5: under any configuration whose strict missing-field check does not
fire (in particular the default one), `Get` against a query producing zero
rows returns the destination type's zero value and no error.  `h1` says a
scalar destination faces at most one column and `h2` that a composite
destination's columns are all mapped (or the DB is in unsafe mode) — i.e.
the query matches the destination, so the only reason for an empty result
is the absence of rows. -/
theorem Get_zero_rows_returns_zero_value {T : Type} (z : T) (env : Env)
    (tid : TypeId) (qk : QKind) (cols : List String)
    (h1 : isScannable env (derefType env tid) = true → cols.length ≤ 1)
    (h2 : ∀ fs, TraversalsByName (mapperOf qk) env tid cols = some fs →
      missingFields fs = none ∨ unsafeOf qk = true) :
    Get z env tid qk (.ok ⟨.ok cols, [], none⟩) = (z, none) := by
  unfold Get
  rw [scanEvents_zero_rows env tid qk cols 0 h1 h2]
  rfl

/-- Witness for C5: a one-column query on a scalar destination with zero
rows. -/
theorem Get_zero_rows_returns_zero_value_witness :
    Get (0 : Nat) envScalar 0 QKind.plain (.ok ⟨.ok ["first_name"], [], none⟩) =
      (0, none) :=
  Get_zero_rows_returns_zero_value 0 envScalar 0 QKind.plain ["first_name"]
    (fun _ => by decide)
    (fun fs h => by simp [TraversalsByName, isStructKind, kindOf, lookup,
      derefType, derefTypeAux, envScalar] at h)

/-! ## C6: the scalar column-count check -/

/-- C6 counterexample: the source checks `len(columns) > 1`, not
`len(columns) != 1`.  A scalar destination against a cursor reporting zero
columns — a column count different from one — does not yield a
column-count-mismatch error as the first and only element of the sequence:
with zero rows the sequence yields nothing at all. -/
theorem scalar_zero_columns_yields_no_error :
    ([] : List String).length ≠ 1 ∧
    isScannable envScalar (derefType envScalar 0) = true ∧
    yieldsOf (scanEvents envScalar 0 QKind.plain
      (.ok (⟨.ok [], [], none⟩ : Cursor Nat)) 5) = [] := by
  refine ⟨by decide, by decide, ?_⟩
  rfl

/-- C6 as amended: for a scalar destination, a cursor reporting *more
than* one column makes the sequence yield the column-count-mismatch error
as its first and only element, with no row pulled. -/
theorem scalar_many_columns_mismatch {T : Type} (env : Env) (tid : TypeId)
    (qk : QKind) (c : Cursor T) (cols : List String) (budget : Nat)
    (hsc : isScannable env (derefType env tid) = true)
    (hc : c.columnsRes = .ok cols)
    (hlen : 1 < cols.length) :
    scanEvents env tid qk (.ok c) budget =
      [Ev.yld (.error (Err.colCountMismatch (kindString env tid) cols.length)),
       Ev.close] ∧
    pullCount (scanEvents env tid qk (.ok c) budget) = 0 := by
  obtain ⟨colsRes, rows, finalErr⟩ := c
  cases hc
  constructor
  · simp [scanEvents, hsc, hlen]
  · simp [scanEvents, hsc, hlen, pullCount, isPullEv]

/-- Witness for the amended C6: a scalar destination against two
columns. -/
theorem scalar_many_columns_mismatch_witness :
    scanEvents envScalar 0 QKind.plain
        (.ok (⟨.ok ["a", "b"], [], none⟩ : Cursor Nat)) 7 =
      [Ev.yld (.error (Err.colCountMismatch "base" 2)), Ev.close] :=
  (scalar_many_columns_mismatch envScalar 0 QKind.plain
    ⟨.ok ["a", "b"], [], none⟩ ["a", "b"] 7 (by decide) rfl (by decide)).1

/-! ## C7: unmapped columns, strict and lenient -/

theorem structLoop_head {T : Type} (vStruct : Bool) (fields : List (List Nat))
    (r : Except Err T) (rest : List (Except Err T)) (budget : Nat)
    (finalErr : Option Err) :
    (structLoop vStruct fields (r :: rest) budget finalErr).head? =
      some Ev.pullStruct := by
  simp [structLoop]

theorem structLoop_bindDests {T : Type} (vStruct : Bool)
    (fields : List (List Nat)) :
    ∀ (rows : List (Except Err T)) (budget : Nat) (finalErr : Option Err)
      (ds : List Dest),
      Ev.bindDests ds ∈ structLoop vStruct fields rows budget finalErr →
      fieldsByTraversal vStruct fields = .ok ds := by
  intro rows
  induction rows with
  | nil =>
    intro budget finalErr ds h
    cases finalErr <;> simp [structLoop] at h
  | cons r rest ih =>
    intro budget finalErr ds h
    cases hb : fieldsByTraversal vStruct fields with
    | error e => simp [structLoop, hb] at h
    | ok dests =>
      cases r with
      | error e =>
        simp [structLoop, hb] at h
        rw [h]
      | ok t =>
        cases budget with
        | zero =>
          simp [structLoop, hb] at h
          rw [h]
        | succ b =>
          simp [structLoop, hb] at h
          rcases h with h | h
          · rw [h]
          · exact hb.symm.trans (ih b finalErr ds h)

theorem map_getD_discard :
    ∀ (fs : List (List Nat)) (j : Nat), j < fs.length → fs.getD j [] = [] →
      (fs.map (fun tr => if tr = [] then Dest.discard else Dest.leafAddr tr)).getD
        j (Dest.leafAddr []) = Dest.discard := by
  intro fs
  induction fs with
  | nil => intro j hj _; simp at hj
  | cons a rest ih =>
    intro j hj he
    cases j with
    | zero =>
      rw [List.getD_cons_zero] at he
      simp [List.getD_cons_zero, he]
    | succ n =>
      rw [List.getD_cons_succ] at he
      rw [List.map_cons, List.getD_cons_succ]
      exact ih n (by simpa using hj) he

/-- C7: for a composite destination whose columns include one with no
registered traversal (`missingFields` reports index `i`): in strict mode
the sequence yields, before any row is pulled, the missing-field error
naming that column, and closes; in lenient (`isUnsafe`) mode decoding
proceeds — rows are pulled — and every destination slice the decoder binds
is the `fieldsByTraversal` image of the traversals, which routes every
unmapped column to the throwaway discard target. -/
theorem scan_unmapped_column_strict_lenient {T : Type} (env : Env)
    (tid : TypeId) (qk : QKind) (c : Cursor T) (cols : List String)
    (fs : List (List Nat)) (i : Nat) (budget : Nat)
    (hsc : isScannable env (derefType env tid) = false)
    (hc : c.columnsRes = .ok cols)
    (htr : TraversalsByName (mapperOf qk) env tid cols = some fs)
    (hmf : missingFields fs = some i)
    (hv : vStructKind env tid = true) :
    (unsafeOf qk = false →
      scanEvents env tid qk (.ok c) budget =
        [Ev.yld (.error (Err.missingDest (cols.getD i ""))), Ev.close] ∧
      pullCount (scanEvents env tid qk (.ok c) budget) = 0) ∧
    (unsafeOf qk = true →
      (c.rows ≠ [] →
        (scanEvents env tid qk (.ok c) budget).head? = some Ev.pullStruct) ∧
      (∀ ds, Ev.bindDests ds ∈ scanEvents env tid qk (.ok c) budget →
        ds = fs.map (fun tr => if tr = [] then Dest.discard else Dest.leafAddr tr) ∧
        ∀ j, j < fs.length → fs.getD j [] = [] →
          ds.getD j (Dest.leafAddr []) = Dest.discard)) := by
  obtain ⟨colsRes, rows, finalErr⟩ := c
  cases hc
  have hev : scanEvents env tid qk
      (.ok (⟨.ok cols, rows, finalErr⟩ : Cursor T)) budget =
      (if unsafeOf qk = false then
        [Ev.yld (.error (Err.missingDest (cols.getD i ""))), Ev.close]
      else structLoop (vStructKind env tid) fs rows budget finalErr) := by
    simp [scanEvents, hsc, htr, hmf]
  constructor
  · intro hu
    rw [hev, if_pos hu]
    constructor
    · rfl
    · simp [pullCount, isPullEv]
  · intro hu
    rw [hev, if_neg (by simp [hu])]
    constructor
    · intro hrows
      cases rows with
      | nil => exact absurd rfl hrows
      | cons r rest => exact structLoop_head _ _ r rest budget finalErr
    · intro ds hds
      have hbind := structLoop_bindDests (vStructKind env tid) fs rows budget
        finalErr ds hds
      rw [fieldsByTraversal, if_neg (by simp [hv])] at hbind
      have hdseq : ds = fs.map
          (fun tr => if tr = [] then Dest.discard else Dest.leafAddr tr) := by
        cases hbind
        rfl
      refine ⟨hdseq, ?_⟩
      intro j hj hempty
      subst hdseq
      exact map_getD_discard fs j hj hempty

/-- Witness for C7 (strict side): a two-field record queried with a known
and an unknown column; the error names the unknown column `"x"`. -/
theorem scan_unmapped_column_strict_lenient_witness :
    scanEvents envPerson 0 QKind.plain
        (.ok (⟨.ok ["first_name", "x"], [], none⟩ : Cursor Nat)) 3 =
      [Ev.yld (.error (Err.missingDest "x")), Ev.close] :=
  ((scan_unmapped_column_strict_lenient envPerson 0 QKind.plain
    ⟨.ok ["first_name", "x"], [], none⟩ ["first_name", "x"] [[0], []] 1 3
    (by decide) rfl (by decide) (by decide) (by decide)).1 rfl).1

/-! ## C10: a struct with no mapped fields takes the scalar path -/

theorem expandFields_all_skipped (env : Env) (mf : String → String) (e : QEntry) :
    ∀ (p : Nat) (fs : List GoField),
      (∀ f ∈ fs, f.exported = false ∧ f.anonymous = false) →
      expandFields env mf e p fs = ([], []) := by
  intro p fs
  induction fs generalizing p with
  | nil => intro _; rfl
  | cons f rest ih =>
    intro hall
    have hf := hall f (by simp)
    have hrest : ∀ g ∈ rest, g.exported = false ∧ g.anonymous = false :=
      fun g hg => hall g (by simp [hg])
    simp only [expandFields]
    rw [if_pos hf]
    exact ih (p + 1) hrest

theorem scalarLoop_no_pullStruct {T : Type} :
    ∀ (rows : List (Except Err T)) (budget : Nat) (finalErr : Option Err),
      (scalarLoop rows budget finalErr).countP isPullStructEv = 0 := by
  intro rows
  induction rows with
  | nil =>
    intro budget finalErr
    cases finalErr <;> simp [scalarLoop, List.countP_append, isPullStructEv]
  | cons r rest ih =>
    intro budget finalErr
    cases r with
    | error e => simp [scalarLoop, isPullStructEv]
    | ok t =>
      cases budget with
      | zero => simp [scalarLoop, isPullStructEv]
      | succ b =>
        simp [scalarLoop, List.countP_cons, isPullStructEv, ih b finalErr]

/-- C10: a destination type that is structurally a struct, has no
self-decode hook, and whose fields are all unexported non-embedded ones
(so nothing is mapped) has an empty flat index, is classified scannable by
the third criterion of `isScannable`, and is therefore decoded through the
scalar path: no run of `scan` ever pulls a row through the composite
(struct) branch. -/
theorem struct_without_mapped_fields_is_scannable (env : Env) (tid : TypeId)
    (flds : List GoField)
    (hl : lookup env tid = ⟨.strukt flds, false⟩)
    (hf : ∀ f ∈ flds, f.exported = false ∧ f.anonymous = false) :
    (TypeMap env goLower tid).Index = [] ∧
    isScannable env tid = true ∧
    ∀ (T : Type) (qk : QKind) (qres : Except Err (Cursor T)) (budget : Nat),
      (scanEvents env tid qk qres budget).countP isPullStructEv = 0 := by
  have hkind : isStructKind env tid = true := by
    simp [isStructKind, kindOf, hl]
  have hderef : derefType env tid = tid := derefType_of_struct env tid hkind
  have hrun : ∀ mf : String → String, getMappingRun env mf tid = ([], true) := by
    intro mf
    have hpos : 0 < fuelBound env := Nat.pos_pow_of_pos _ (by omega)
    obtain ⟨k, hk⟩ := Nat.exists_eq_succ_of_ne_zero (Nat.pos_iff_ne_zero.mp hpos)
    unfold getMappingRun
    rw [hk, hderef]
    show goFuel env mf (k + 1) [⟨tid, none, [], [], ""⟩] [] = ([], true)
    have hexp : expandEntry env mf ⟨tid, none, [], [], ""⟩ = ([], []) := by
      unfold expandEntry entryRecursive
      simp only [hl]
      exact expandFields_all_skipped env mf _ 0 flds hf
    simp [goFuel, hexp]
  have hidx : (TypeMap env goLower tid).Index = [] := by
    unfold TypeMap getMapping
    rw [hrun goLower]
    rfl
  have hscn : isScannable env tid = true := by
    unfold isScannable
    rw [hkind]
    simp [hidx]
  refine ⟨hidx, hscn, ?_⟩
  intro T qk qres budget
  cases qres with
  | error e => simp [scanEvents, isPullStructEv]
  | ok c =>
    obtain ⟨colsRes, rows, finalErr⟩ := c
    cases colsRes with
    | error e => simp [scanEvents, isPullStructEv]
    | ok cols =>
      simp only [scanEvents, hderef, hscn]
      by_cases hlen : 1 < cols.length
      · simp [hlen, isPullStructEv]
      · simp [hlen, scalarLoop_no_pullStruct rows budget finalErr]

/-- Witness for C10: a struct whose only field is unexported. -/
theorem struct_without_mapped_fields_is_scannable_witness :
    (TypeMap [⟨.strukt [⟨"hidden", 0, "", false, false⟩], false⟩] goLower 0).Index
        = [] ∧
    isScannable [⟨.strukt [⟨"hidden", 0, "", false, false⟩], false⟩] 0 = true :=
  ⟨(struct_without_mapped_fields_is_scannable
      [⟨.strukt [⟨"hidden", 0, "", false, false⟩], false⟩] 0
      [⟨"hidden", 0, "", false, false⟩] (by decide) (by decide)).1,
   (struct_without_mapped_fields_is_scannable
      [⟨.strukt [⟨"hidden", 0, "", false, false⟩], false⟩] 0
      [⟨"hidden", 0, "", false, false⟩] (by decide) (by decide)).2.1⟩

/-! ## C2: shadowing in the name index -/

theorem mapFind_cons (k : String) (v : FI) (l : List (String × FI)) (p : String) :
    mapFind ((k, v) :: l) p = if k = p then some v else mapFind l p := rfl

/-- Once a path's occupant is non-embedded, the rest of the pass leaves
the name index's entry for that path untouched. -/
theorem buildGo_locked :
    ∀ (l : List FI) (paths names : List (String × FI)) (p : String) (fld : FI),
      mapFind paths p = some fld → fld.embedded = false →
      mapFind (buildGo l paths names) p = mapFind names p := by
  intro l
  induction l with
  | nil => intro paths names p fld _ _; rfl
  | cons fi rest ih =>
    intro paths names p fld hocc hne
    by_cases hpp : fi.path = p
    · subst hpp
      simp only [buildGo, hocc]
      rw [if_neg (by simp [hne])]
      exact ih paths names fi.path fld hocc hne
    · cases hfind : mapFind paths fi.path with
      | none =>
        simp only [buildGo, hfind]
        rw [ih _ _ p fld (by rw [mapFind_cons, if_neg hpp]; exact hocc) hne]
        split
        · rw [mapFind_cons, if_neg hpp]
        · rfl
      | some fld' =>
        simp only [buildGo, hfind]
        by_cases hemb : fld'.embedded = true
        · rw [if_pos hemb,
            ih _ _ p fld (by rw [mapFind_cons, if_neg hpp]; exact hocc) hne]
          split
          · rw [mapFind_cons, if_neg hpp]
          · rfl
        · rw [if_neg hemb]
          exact ih paths names p fld hocc hne

/-- The first non-embedded descriptor for a path claims the name index
entry for that path, and nothing after it — embedded or not — can replace
it. -/
theorem buildGo_first_non_embedded :
    ∀ (l1 : List FI) (d : FI) (l2 : List FI) (paths names : List (String × FI)),
      (∀ e ∈ l1, e.path = d.path → e.embedded = true) →
      d.embedded = false → d.name ≠ "" →
      (mapFind paths d.path = none ∨
        ∃ fld, mapFind paths d.path = some fld ∧ fld.embedded = true) →
      mapFind (buildGo (l1 ++ d :: l2) paths names) d.path = some d := by
  intro l1
  induction l1 with
  | nil =>
    intro d l2 paths names _ hne hname hocc
    have hstep : ∀ paths' : List (String × FI),
        mapFind paths' d.path = some d →
        mapFind (buildGo l2 paths' ((d.path, d) :: names)) d.path = some d := by
      intro paths' h1
      rw [buildGo_locked l2 paths' _ d.path d h1 hne, mapFind_cons, if_pos rfl]
    rcases hocc with hnone | ⟨fld, hsome, hemb⟩
    · rw [List.nil_append]
      simp only [buildGo, hnone]
      rw [if_pos ⟨hname, hne⟩]
      exact hstep _ (by rw [mapFind_cons, if_pos rfl])
    · rw [List.nil_append]
      simp only [buildGo, hsome]
      rw [if_pos hemb, if_pos ⟨hname, hne⟩]
      exact hstep _ (by rw [mapFind_cons, if_pos rfl])
  | cons fi l1' ih =>
    intro d l2 paths names hall hne hname hocc
    have hrest : ∀ e ∈ l1', e.path = d.path → e.embedded = true :=
      fun e he => hall e (by simp [he])
    rw [List.cons_append]
    by_cases hpp : fi.path = d.path
    · have hfemb : fi.embedded = true := hall fi (by simp) hpp
      have hocc' : mapFind ((fi.path, fi) :: paths) d.path = none ∨
          ∃ fld, mapFind ((fi.path, fi) :: paths) d.path = some fld ∧
            fld.embedded = true := by
        right
        exact ⟨fi, by rw [mapFind_cons, if_pos hpp], hfemb⟩
      cases hfind : mapFind paths fi.path with
      | none =>
        simp only [buildGo, hfind]
        exact ih d l2 _ _ hrest hne hname hocc'
      | some fld' =>
        by_cases hemb : fld'.embedded = true
        · simp only [buildGo, hfind]
          rw [if_pos hemb]
          exact ih d l2 _ _ hrest hne hname hocc'
        · exfalso
          rcases hocc with hnone | ⟨fld, hsome, hembd⟩
          · rw [hpp] at hfind; rw [hfind] at hnone; cases hnone
          · rw [hpp] at hfind; rw [hfind] at hsome
            cases hsome
            exact hemb hembd
    · have hkeep : ∀ x : FI,
          mapFind ((fi.path, x) :: paths) d.path = mapFind paths d.path :=
        fun x => by rw [mapFind_cons, if_neg hpp]
      have hocc' : ∀ x : FI, mapFind ((fi.path, x) :: paths) d.path = none ∨
          ∃ fld, mapFind ((fi.path, x) :: paths) d.path = some fld ∧
            fld.embedded = true := by
        intro x
        rcases hocc with hnone | ⟨fld, hsome, hembd⟩
        · exact Or.inl (by rw [hkeep]; exact hnone)
        · exact Or.inr ⟨fld, by rw [hkeep]; exact hsome, hembd⟩
      cases hfind : mapFind paths fi.path with
      | none =>
        simp only [buildGo, hfind]
        exact ih d l2 _ _ hrest hne hname (hocc' fi)
      | some fld' =>
        by_cases hemb : fld'.embedded = true
        · simp only [buildGo, hfind]
          rw [if_pos hemb]
          exact ih d l2 _ _ hrest hne hname (hocc' fi)
        · simp only [buildGo, hfind]
          rw [if_neg hemb]
          exact ih d l2 _ _ hrest hne hname hocc

/-- The shadowing environment: type 0 declares an untagged embedded
`Emailer` (type 2) first and a direct tagged `Email` field second; the
promoted `Email` of the embedding and the direct field both resolve to the
path `"email"`. -/
def envShadow : Env := [
  ⟨.strukt [⟨"Emailer", 2, "", true, true⟩, ⟨"Email", 1, "email", false, true⟩], false⟩,
  ⟨.base, false⟩,
  ⟨.strukt [⟨"Email", 1, "email", false, true⟩], false⟩]

/-- C2: the name index is assembled in a single pass over the flat index
in discovery order; the first non-embedded descriptor for a path (every
earlier descriptor on that path being an embedded promotion marker) is
registered and no later descriptor, embedded or not, displaces it — the
suffix `l2` is arbitrary.  Concretely, for `envShadow`, where an embedded
sub-record's promoted `Email` and a directly declared `Email` both resolve
to path `"email"`, the name index registers the direct field's descriptor
(traversal `[1]`), not the promoted one (traversal `[0, 0]`) — breadth
first discovery puts the direct field first. -/
theorem nameIndex_direct_field_shadows :
    (∀ (l1 : List FI) (d : FI) (l2 : List FI),
      (∀ e ∈ l1, e.path = d.path → e.embedded = true) →
      d.embedded = false → d.name ≠ "" →
      mapFind (buildStructMap (l1 ++ d :: l2)).Names d.path = some d) ∧
    (getMapping envShadow goLower 0).Index.map FI.traversal =
      [[0], [1], [0, 0]] ∧
    mapFind (getMapping envShadow goLower 0).Names "email" =
      some ⟨[1], "email", "email", 1, false⟩ := by
  refine ⟨?_, by decide, by decide⟩
  intro l1 d l2 hall hne hname
  exact buildGo_first_non_embedded l1 d l2 [] [] hall hne hname (Or.inl rfl)

/-- Witness for C2 at concrete lists: an embedded occupant first, the
direct descriptor second, a later embedded promotion third. -/
theorem nameIndex_direct_field_shadows_witness :
    mapFind (buildStructMap
      [⟨[0], "email", "email", 2, true⟩,
       ⟨[1], "email", "email", 1, false⟩,
       ⟨[0, 0], "email", "email", 1, false⟩]).Names "email" =
      some ⟨[1], "email", "email", 1, false⟩ :=
  (nameIndex_direct_field_shadows).1
    [⟨[0], "email", "email", 2, true⟩]
    ⟨[1], "email", "email", 1, false⟩
    [⟨[0, 0], "email", "email", 1, false⟩]
    (by decide) rfl (by decide)

/-! ## C9: the exclusion sentinel -/

theorem expandFields_no_sentinel (env : Env) (mf : String → String) (e : QEntry) :
    ∀ (p : Nat) (fs : List GoField) (fi : FI),
      fi ∈ (expandFields env mf e p fs).2 → fi.name ≠ "-" := by
  intro p fs
  induction fs generalizing p with
  | nil => intro fi h; simp [expandFields] at h
  | cons f rest ih =>
    intro fi h
    simp only [expandFields] at h
    split at h
    · exact ih (p + 1) fi h
    · split at h
      · exact ih (p + 1) fi h
      · rename_i hname
        split at h
        · simp only [List.mem_cons] at h
          rcases h with h | h
          · subst h; exact hname
          · exact ih (p + 1) fi h
        · split at h
          · simp only [List.mem_cons] at h
            rcases h with h | h
            · subst h; exact hname
            · exact ih (p + 1) fi h
          · simp only [List.mem_cons] at h
            rcases h with h | h
            · subst h; exact hname
            · exact ih (p + 1) fi h

theorem expandEntry_no_sentinel (env : Env) (mf : String → String) (e : QEntry)
    (fi : FI) (h : fi ∈ (expandEntry env mf e).2) : fi.name ≠ "-" := by
  unfold expandEntry at h
  split at h
  · simp at h
  · split at h
    · exact expandFields_no_sentinel env mf e 0 _ fi h
    · simp at h

theorem goFuel_no_sentinel (env : Env) (mf : String → String) :
    ∀ (fuel : Nat) (q : List QEntry) (m : List FI),
      (∀ fi ∈ m, fi.name ≠ "-") →
      ∀ fi ∈ (goFuel env mf fuel q m).1, fi.name ≠ "-" := by
  intro fuel
  induction fuel with
  | zero =>
    intro q m hm fi h
    cases q with
    | nil => exact hm fi h
    | cons e rest => exact hm fi h
  | succ n ih =>
    intro q m hm fi h
    cases q with
    | nil => exact hm fi h
    | cons e rest =>
      refine ih (rest ++ (expandEntry env mf e).1) (m ++ (expandEntry env mf e).2)
        ?_ fi h
      intro g hg
      rcases List.mem_append.mp hg with hg | hg
      · exact hm g hg
      · exact expandEntry_no_sentinel env mf e g hg

/-- Every binding the name-index pass adds comes from the flat index. -/
theorem buildGo_pairs_mem :
    ∀ (l : List FI) (paths names : List (String × FI)) (pr : String × FI),
      pr ∈ buildGo l paths names → pr ∈ names ∨ pr.2 ∈ l := by
  intro l
  induction l with
  | nil => intro paths names pr h; exact Or.inl h
  | cons a rest ih =>
    intro paths names pr h
    have hcons : ∀ names' : List (String × FI),
        pr ∈ names' ∨ pr.2 ∈ rest →
        (pr ∈ (a.path, a) :: names' ∨ pr ∈ names') ∨ pr.2 ∈ a :: rest := by
      intro names' h'
      rcases h' with h' | h'
      · exact Or.inl (Or.inr h')
      · exact Or.inr (by simp [h'])
    have hfinish : ∀ names' : List (String × FI),
        pr ∈ buildGo rest ((a.path, a) :: paths)
          (if a.name ≠ "" ∧ a.embedded = false then (a.path, a) :: names'
           else names') →
        pr ∈ names' ∨ pr.2 ∈ a :: rest := by
      intro names' h'
      split at h'
      · rcases ih _ _ pr h' with h' | h'
        · rcases List.mem_cons.mp h' with h' | h'
          · subst h'; exact Or.inr (by simp)
          · exact Or.inl h'
        · exact Or.inr (by simp [h'])
      · rcases ih _ _ pr h' with h' | h'
        · exact Or.inl h'
        · exact Or.inr (by simp [h'])
    simp only [buildGo] at h
    cases hfind : mapFind paths a.path with
    | none =>
      simp only [hfind] at h
      exact hfinish names h
    | some fld =>
      simp only [hfind] at h
      by_cases hemb : fld.embedded = true
      · rw [if_pos hemb] at h
        exact hfinish names h
      · rw [if_neg hemb] at h
        rcases ih _ _ pr h with h' | h'
        · exact Or.inl h'
        · exact Or.inr (by simp [h'])

/-- A tiny record whose first field carries the exclusion sentinel tag
`"-"` and whose second is an ordinary tagged field. -/
def envExcluded : Env := [
  ⟨.strukt [⟨"Secret", 1, "-", false, true⟩, ⟨"Name", 1, "name", false, true⟩], false⟩,
  ⟨.base, false⟩]

/-- C9: a field whose resolved name is the sentinel `"-"` is skipped
before any descriptor is created, so no descriptor with resolved name
`"-"` ever appears in the flat index or the name index of any type's
metadata (the descriptor tree's non-root nodes are exactly the flat-index
entries, so it is absent from the tree as well); concretely, in
`envExcluded` only the `name` field is mapped. -/
theorem excluded_sentinel_never_mapped :
    (∀ (env : Env) (mf : String → String) (tid : TypeId),
      ((getMapping env mf tid).Index.all fun fi => fi.name != "-") = true ∧
      ((getMapping env mf tid).Names.all fun pr => pr.2.name != "-") = true) ∧
    (getMapping envExcluded goLower 0).Index.map FI.name = ["name"] ∧
    mapFind (getMapping envExcluded goLower 0).Names "-" = none := by
  refine ⟨?_, by decide, by decide⟩
  intro env mf tid
  have hidx : ∀ fi ∈ (getMapping env mf tid).Index, fi.name ≠ "-" := by
    intro fi h
    exact goFuel_no_sentinel env mf (fuelBound env) _ [] (by simp) fi h
  constructor
  · rw [List.all_eq_true]
    intro fi h
    exact bne_iff_ne.mpr (hidx fi h)
  · rw [List.all_eq_true]
    intro pr h
    have hmem : pr ∈ ([] : List (String × FI)) ∨
        pr.2 ∈ (getMapping env mf tid).Index :=
      buildGo_pairs_mem (getMapping env mf tid).Index [] [] pr h
    rcases hmem with hmem | hmem
    · cases hmem
    · exact bne_iff_ne.mpr (hidx pr.2 hmem)

/-! ## C3: termination of the breadth-first construction

The measure: a queue entry's ancestor chain only ever grows, one type per
tree level, and an entry is only expanded when its own field type is not
already in the chain; on a well-formed environment the chain is therefore
a duplicate-free list of valid type ids, so its length is bounded by the
number of types, and the weighted sum `measureQ` strictly decreases at
every step of the queue loop. -/

/-- Length of the chain: strict ancestors plus the entry's own field type. -/
def chainLen (e : QEntry) : Nat :=
  e.ancestors.length + e.ftype.toList.length

/-- Weight of one entry: `B ^ (N + 1 - chainLen e)`. -/
def pot (B N : Nat) (e : QEntry) : Nat :=
  B ^ (N + 1 - chainLen e)

def measureQ (B N : Nat) (q : List QEntry) : Nat :=
  (q.map (pot B N)).sum

/-- The queue invariant: the ancestor chain is duplicate-free and all its
ids, and the entry's own field type, are valid. -/
def InvE (N : Nat) (e : QEntry) : Prop :=
  e.ancestors.Nodup ∧ (∀ a ∈ e.ancestors, a < N) ∧
    (∀ ft, e.ftype = some ft → ft < N)

theorem measureQ_nil (B N : Nat) : measureQ B N [] = 0 := rfl

theorem measureQ_cons (B N : Nat) (e : QEntry) (q : List QEntry) :
    measureQ B N (e :: q) = pot B N e + measureQ B N q := by
  simp [measureQ]

theorem measureQ_append (B N : Nat) (q1 q2 : List QEntry) :
    measureQ B N (q1 ++ q2) = measureQ B N q1 + measureQ B N q2 := by
  simp [measureQ]

theorem pot_pos (B N : Nat) (e : QEntry) (hB : 0 < B) : 0 < pot B N e :=
  Nat.pos_pow_of_pos _ hB

theorem nodup_bounded_length_le (l : List Nat) (N : Nat) (h : l.Nodup)
    (hb : ∀ a ∈ l, a < N) : l.length ≤ N := by
  have hsub : l.toFinset ⊆ Finset.range N := by
    intro x hx
    exact Finset.mem_range.mpr (hb x (List.mem_toFinset.mp hx))
  calc l.length = l.toFinset.card := (List.toFinset_card_of_nodup h).symm
    _ ≤ (Finset.range N).card := Finset.card_le_card hsub
    _ = N := Finset.card_range N

theorem sum_map_const {α : Type} :
    ∀ (l : List α) (f : α → Nat) (c : Nat),
      (∀ x ∈ l, f x = c) → (l.map f).sum = l.length * c := by
  intro l f c
  induction l with
  | nil => intro _; simp
  | cons a rest ih =>
    intro h
    have ha := h a (by simp)
    have hrest := ih fun x hx => h x (by simp [hx])
    simp [ha, hrest, Nat.succ_mul, Nat.add_comm]

theorem numFields_le_maxFields :
    ∀ (env : Env) (ent : TypeEnt), ent ∈ env → numFields ent ≤ maxFields env := by
  intro env
  induction env with
  | nil => intro ent h; cases h
  | cons a rest ih =>
    intro ent h
    rcases List.mem_cons.mp h with h | h
    · subst h
      exact Nat.le_max_left _ _ |>.trans (Nat.le_refl _)
    · exact (ih ent h).trans (Nat.le_max_right _ _)

theorem lookup_mem_of_strukt (env : Env) (t : TypeId) (fs : List GoField)
    (hd : (lookup env t).desc = .strukt fs) : lookup env t ∈ env := by
  unfold lookup at hd ⊢
  cases hg : env.get? t with
  | none => rw [List.getD_eq_getD_get?, hg] at hd; cases hd
  | some ent =>
    rw [List.getD_eq_getD_get?, hg]
    exact List.get?_mem hg

theorem envWF_spec (env : Env) (h : envWF env = true) :
    ∀ ent ∈ env, ∀ f ∈ entFields ent, f.typ < env.length := by
  intro ent hent f hf
  unfold envWF at h
  rw [List.all_eq_true] at h
  have h2 := h ent hent
  rw [List.all_eq_true] at h2
  exact of_decide_eq_true (h2 f hf)

theorem expandFields_queue_shape (env : Env) (mf : String → String) (e : QEntry) :
    ∀ (p : Nat) (fs : List GoField) (q' : QEntry),
      q' ∈ (expandFields env mf e p fs).1 →
      q'.ancestors = e.ancestors ++ e.ftype.toList ∧
        ∃ f ∈ fs, q'.ftype = some f.typ := by
  intro p fs
  induction fs generalizing p with
  | nil => intro q' h; simp [expandFields] at h
  | cons f rest ih =>
    intro q' h
    have hih : ∀ q', q' ∈ (expandFields env mf e (p + 1) rest).1 →
        q'.ancestors = e.ancestors ++ e.ftype.toList ∧
          ∃ g ∈ f :: rest, q'.ftype = some g.typ := by
      intro q' h'
      obtain ⟨h1, g, hg, h2⟩ := ih (p + 1) q' h'
      exact ⟨h1, g, by simp [hg], h2⟩
    simp only [expandFields] at h
    split at h
    · exact hih q' h
    · split at h
      · exact hih q' h
      · split at h
        · simp only [List.mem_cons] at h
          rcases h with h | h
          · subst h
            exact ⟨rfl, f, by simp, rfl⟩
          · exact hih q' h
        · split at h
          · simp only [List.mem_cons] at h
            rcases h with h | h
            · subst h
              exact ⟨rfl, f, by simp, rfl⟩
            · exact hih q' h
          · exact hih q' h

theorem expandFields_length (env : Env) (mf : String → String) (e : QEntry) :
    ∀ (p : Nat) (fs : List GoField),
      (expandFields env mf e p fs).1.length ≤ fs.length := by
  intro p fs
  induction fs generalizing p with
  | nil => simp [expandFields]
  | cons f rest ih =>
    simp only [expandFields]
    split
    · exact (ih (p + 1)).trans (by simp)
    · split
      · exact (ih (p + 1)).trans (by simp)
      · split
        · simpa using ih (p + 1)
        · split
          · simpa using ih (p + 1)
          · exact (ih (p + 1)).trans (by simp)

/-- The queue loop consumes its whole queue whenever the fuel dominates
the measure: the central termination argument. -/
theorem goFuel_completes (env : Env) (mf : String → String)
    (hwf : envWF env = true) :
    ∀ (fuel : Nat) (q : List QEntry) (m : List FI),
      (∀ e ∈ q, InvE env.length e) →
      measureQ (maxFields env + 2) env.length q ≤ fuel →
      (goFuel env mf fuel q m).2 = true := by
  intro fuel
  induction fuel with
  | zero =>
    intro q m hinv hmeas
    cases q with
    | nil => rfl
    | cons e rest =>
      exfalso
      have h1 : 0 < pot (maxFields env + 2) env.length e :=
        pot_pos _ _ e (by omega)
      rw [measureQ_cons] at hmeas
      omega
  | succ n ih =>
    intro q m hinv hmeas
    cases q with
    | nil => rfl
    | cons e rest =>
      simp only [goFuel]
      rw [measureQ_cons] at hmeas
      have hrestinv : ∀ x ∈ rest, InvE env.length x :=
        fun x hx => hinv x (by simp [hx])
      have hpotpos : 0 < pot (maxFields env + 2) env.length e :=
        pot_pos _ _ e (by omega)
      by_cases hrec : entryRecursive e = true
      · have hexp : expandEntry env mf e = ([], []) := by
          simp [expandEntry, hrec]
        rw [hexp]
        simp only [List.append_nil]
        exact ih rest _ hrestinv (by omega)
      · have hrecf : entryRecursive e = false := by
          revert hrec; cases entryRecursive e <;> simp
        cases hd : (lookup env e.t).desc with
        | base =>
          have hexp : expandEntry env mf e = ([], []) := by
            simp [expandEntry, hrecf, hd]
          rw [hexp]
          simp only [List.append_nil]
          exact ih rest _ hrestinv (by omega)
        | ptr j =>
          have hexp : expandEntry env mf e = ([], []) := by
            simp [expandEntry, hrecf, hd]
          rw [hexp]
          simp only [List.append_nil]
          exact ih rest _ hrestinv (by omega)
        | strukt fs =>
          have hexp : expandEntry env mf e = expandFields env mf e 0 fs := by
            simp [expandEntry, hrecf, hd]
          rw [hexp]
          obtain ⟨hnd, hanc, hft⟩ := hinv e (by simp)
          have hentmem : lookup env e.t ∈ env := lookup_mem_of_strukt env e.t fs hd
          have hef : entFields (lookup env e.t) = fs := by
            unfold entFields; rw [hd]
          have hflds : ∀ f ∈ fs, f.typ < env.length :=
            fun f hf => envWF_spec env hwf _ hentmem f (by rw [hef]; exact hf)
          have hnotmem : ∀ ft, e.ftype = some ft → ft ∉ e.ancestors := by
            intro ft hfe hmem
            apply hrec
            unfold entryRecursive
            rw [hfe]
            simpa using hmem
          have hanc'_nodup : (e.ancestors ++ e.ftype.toList).Nodup := by
            cases hfe : e.ftype with
            | none => simpa using hnd
            | some ft =>
              have hni := hnotmem ft hfe
              simp [List.nodup_append, hnd, hni]
          have hanc'_lt : ∀ a ∈ e.ancestors ++ e.ftype.toList, a < env.length := by
            intro a ha
            rcases List.mem_append.mp ha with ha | ha
            · exact hanc a ha
            · cases hfe : e.ftype with
              | none => rw [hfe] at ha; cases ha
              | some ft =>
                rw [hfe] at ha
                simp at ha
                subst ha
                exact hft a hfe
          have hchain : chainLen e ≤ env.length := by
            have hle := nodup_bounded_length_le _ env.length hanc'_nodup hanc'_lt
            simpa [chainLen, List.length_append] using hle
          have hshape : ∀ q' ∈ (expandFields env mf e 0 fs).1,
              chainLen q' = chainLen e + 1 ∧ InvE env.length q' := by
            intro q' hq'
            obtain ⟨hanc', f, hfmem, hft'⟩ :=
              expandFields_queue_shape env mf e 0 fs q' hq'
            refine ⟨?_, ?_, ?_, ?_⟩
            · simp [chainLen, hanc', hft', List.length_append]
            · rw [hanc']; exact hanc'_nodup
            · rw [hanc']; exact hanc'_lt
            · intro ft hfe
              rw [hft'] at hfe
              cases hfe
              exact hflds f hfmem
          have hpot_e : pot (maxFields env + 2) env.length e =
              (maxFields env + 2) * (maxFields env + 2) ^ (env.length - chainLen e) := by
            unfold pot
            rw [show env.length + 1 - chainLen e = (env.length - chainLen e) + 1 by
              omega]
            rw [pow_succ]
            ring
          have hpot_child : ∀ q' ∈ (expandFields env mf e 0 fs).1,
              pot (maxFields env + 2) env.length q' =
                (maxFields env + 2) ^ (env.length - chainLen e) := by
            intro q' hq'
            have hcl := (hshape q' hq').1
            unfold pot
            rw [hcl, show env.length + 1 - (chainLen e + 1) =
              env.length - chainLen e by omega]
          have hsum_qs : measureQ (maxFields env + 2) env.length
              (expandFields env mf e 0 fs).1 =
              (expandFields env mf e 0 fs).1.length *
                (maxFields env + 2) ^ (env.length - chainLen e) :=
            sum_map_const _ _ _ hpot_child
          have hlen_qs : (expandFields env mf e 0 fs).1.length ≤ maxFields env := by
            have h1 := expandFields_length env mf e 0 fs
            have h2 : numFields (lookup env e.t) = fs.length := by
              unfold numFields; rw [hd]
            have h3 := numFields_le_maxFields env _ hentmem
            omega
          have hxpos : 0 < (maxFields env + 2) ^ (env.length - chainLen e) :=
            Nat.pos_pow_of_pos _ (by omega)
          have hmq : measureQ (maxFields env + 2) env.length
              (rest ++ (expandFields env mf e 0 fs).1) ≤ n := by
            rw [measureQ_append, hsum_qs]
            have h1 : (expandFields env mf e 0 fs).1.length *
                (maxFields env + 2) ^ (env.length - chainLen e) ≤
                maxFields env * (maxFields env + 2) ^ (env.length - chainLen e) :=
              Nat.mul_le_mul_right _ hlen_qs
            rw [hpot_e] at hmeas
            have h2 : (maxFields env + 2) *
                (maxFields env + 2) ^ (env.length - chainLen e) =
                maxFields env * (maxFields env + 2) ^ (env.length - chainLen e) +
                  2 * (maxFields env + 2) ^ (env.length - chainLen e) := by
              ring
            rw [h2] at hmeas
            generalize hA : maxFields env *
              (maxFields env + 2) ^ (env.length - chainLen e) = A at h1 hmeas
            generalize hX : (maxFields env + 2) ^ (env.length - chainLen e) = X
              at h1 hmeas hxpos
            generalize hQ : (expandFields env mf e 0 fs).1.length * X = Q at h1
            omega
          refine ih (rest ++ (expandFields env mf e 0 fs).1) _ ?_ hmq
          intro x hx
          rcases List.mem_append.mp hx with hx | hx
          · exact hrestinv x hx
          · exact (hshape x hx).2

/-- A directly self-referential record: type 0 is `Node { Next *Node }`,
type 1 is `*Node`. -/
def envNode : Env := [
  ⟨.strukt [⟨"Next", 1, "next", false, true⟩], false⟩,
  ⟨.ptr 0, false⟩]

/-- C3: on every well-formed environment metadata construction by
`getMapping` terminates — the fueled queue loop finishes with fuel to
spare (completion flag `true`), for every root type, including every
self-referential one.  A popped descriptor whose field type equals a
strict ancestor's field type (`entryRecursive`) is expanded to nothing:
no child descriptors and no further queue entries.  Concretely, for the
self-referential `Node`, the flat index holds exactly the paths `next`
and `next.next`: the self-referential field `next.next` is still indexed
— also in the name index — but none of its own fields are explored. -/
theorem getMapping_selfreferential_terminates :
    (∀ (env : Env) (mf : String → String) (t : TypeId), envWF env = true →
      getMappingComplete env mf t = true) ∧
    (∀ (env : Env) (mf : String → String) (e : QEntry),
      entryRecursive e = true → expandEntry env mf e = ([], [])) ∧
    ((getMapping envNode goLower 0).Index.map FI.path = ["next", "next.next"] ∧
      mapFind (getMapping envNode goLower 0).Names "next.next" =
        some ⟨[0, 0], "next.next", "next", 1, false⟩ ∧
      envWF envNode = true) := by
  refine ⟨?_, ?_, by decide, by decide, by decide⟩
  · intro env mf t hwf
    unfold getMappingComplete getMappingRun
    apply goFuel_completes env mf hwf
    · intro e he
      simp only [List.mem_singleton] at he
      subst he
      refine ⟨List.nodup_nil, by simp, ?_⟩
      intro ft hft
      cases hft
    · apply le_of_eq
      simp [measureQ, pot, chainLen, fuelBound]
  · intro env mf e h
    simp [expandEntry, h]

/-- Witness for C3: the self-referential `Node` environment is well formed
and its metadata construction completes. -/
theorem getMapping_selfreferential_terminates_witness :
    getMappingComplete envNode goLower 0 = true :=
  getMapping_selfreferential_terminates.1 envNode goLower 0 (by decide)

end Dbx
